import Mathlib

/-!
# Wikipedia-Word-Picker: a shallow embedding in Lean 4

This file embeds the Go program `main.go` of the Wikipedia-Word-Picker
repository and proves properties of its components:

* the word selector `PickRandomUniqueWords` (rejection sampling of unique,
  not-previously-used words), with the random source `rand.Intn` made
  explicit as a stream of drawn indices;
* the HTML paragraph-word extractor `ExtractWordsFromParagraphs` over a
  tree model of `golang.org/x/net/html` nodes (`FirstChild`/`NextSibling`
  chains become a mutually inductive node/forest type);
* the SQLite-backed usage store (`initDB`, `storeUsedWords`,
  `getUsedWords`), modelled as a list of `(word, language)` rows with the
  `INSERT OR IGNORE` / primary-key semantics made explicit, and a
  transactional variant with an explicit failure oracle for the
  atomicity analysis;
* the HTTP handler `pickHandler`, with the fallible external operations
  (outbound fetch, body read, HTML parse, store access) supplied by an
  environment of oracles.

Go `int` values that can be negative (the requested count) are modelled as
`Int`; loops without a structural bound are modelled as recursion over the
explicit draw stream, returning `none` when the stream is exhausted before
the loop exits (so "the loop terminates on some stream" is `∃ draws, … =
some result`).
-/

namespace WikiPicker

/-! ## Word selector (`main.go` lines 134-168) -/

/-- `contains` from `main.go`: check if a word is in an array. -/
def contains : List String → String → Bool
  | [], _ => false
  | value :: rest, word => if value == word then true else contains rest word

/-- The body of the `for` loop of `PickRandomUniqueWords` (`main.go`
lines 154-165).  Each iteration consumes one drawn index `d` (the value
returned by `rand.Intn(len(words))`); `acc` is the `randomWords` slice built
so far.  `none` means the loop did not exit within the given draw stream;
an out-of-range draw (impossible for `rand.Intn`) also yields `none`. -/
def pickLoop (words : List String) (n : Int) (usedBefore : List String) :
    List Nat → List String → Option (List String)
  | [], _ => none
  | d :: ds, acc =>
    match words[d]? with
    | none => none
    | some word =>
      if usedBefore.contains word || contains acc word then
        pickLoop words n usedBefore ds acc
      else if ((acc ++ [word]).length : Int) = n then some (acc ++ [word])
      else pickLoop words n usedBefore ds (acc ++ [word])

/-- `PickRandomUniqueWords` from `main.go` lines 147-168, with the random
source explicit: `draws` is the stream of indices produced by
`rand.Intn(len(words))` and `usedBefore` is the key set of the Go
`map[string]struct{}`. -/
def PickRandomUniqueWords (words : List String) (n : Int)
    (usedBefore : List String) (draws : List Nat) : Option (List String) :=
  if n ≥ (words.length : Int) then some words
  else pickLoop words n usedBefore draws []

/-- The number of distinct words of the pool that are not excluded: the
eligible-distinct count used by the termination analysis. -/
def eligibleCount (words usedBefore : List String) : Nat :=
  ((words.dedup).filter (fun w => !(usedBefore.contains w))).length

/-! ## HTML document model (`golang.org/x/net/html` nodes)

A parsed node carries a type, a `Data` string (tag name for elements, text
for text nodes) and its children; in Go the children are the linked chain
`FirstChild`/`NextSibling`, which becomes the forest type below. -/

inductive NodeType where
  | errorNode
  | textNode
  | documentNode
  | elementNode
  | commentNode
  | doctypeNode
  deriving DecidableEq

mutual
inductive HNode where
  | mk (ntype : NodeType) (data : String) (firstChild : HForest)
inductive HForest where
  | nil
  | cons (node : HNode) (nextSibling : HForest)
end

/-! `getText` from `main.go` lines 107-119: concatenate the text content of
a node's subtree (a text node contributes `Data`, then all children in
sibling order). -/
mutual
def getText : HNode → String
  | .mk t d cs => (if t = NodeType.textNode then d else "") ++ getTextF cs
def getTextF : HForest → String
  | .nil => ""
  | .cons c cs => getText c ++ getTextF cs
end

/-- `RemovePunctuation` from `main.go` lines 121-132: keep only letters,
whitespace and the apostrophe (code point 39), lowercasing every kept rune.
Go classifies with the Unicode tables (`unicode.IsLetter` etc.); the model
uses the corresponding `Char` classifiers. -/
def RemovePunctuation (s : String) : String :=
  String.mk (s.data.filterMap (fun r =>
    if r.isAlpha || r.isWhitespace || r == Char.ofNat 39
    then some r.toLower else none))

/-- Splitter for `strings.Fields`: `cur` is the reversed run of non-space
characters read so far; a whitespace character (or the end) closes the
current field, and empty fields are not emitted. -/
def fieldsChars : List Char → List Char → List String
  | [], cur => if cur = [] then [] else [String.mk cur.reverse]
  | c :: cs, cur =>
    if c.isWhitespace then
      (if cur = [] then [] else [String.mk cur.reverse]) ++ fieldsChars cs []
    else fieldsChars cs (c :: cur)

/-- `strings.Fields`: split around runs of whitespace, dropping empty
pieces. -/
def fields (s : String) : List String :=
  fieldsChars s.data []

/-- The `<p>`-element test of `main.go` line 94. -/
def isParagraph : HNode → Bool
  | .mk t d _ => t == NodeType.elementNode && d == "p"

/-! The `traverse` closure of `ExtractWordsFromParagraphs` (`main.go`
lines 92-101): at a `<p>` element append the fields of the cleaned subtree
text, then recurse into the children (in both cases). -/
mutual
def traverse : HNode → List String
  | n@(.mk _ _ cs) =>
    (if isParagraph n then fields (RemovePunctuation (getText n)) else []) ++
      traverseF cs
def traverseF : HForest → List String
  | .nil => []
  | .cons c cs => traverse c ++ traverseF cs
end

/-- `ExtractWordsFromParagraphs` from `main.go` lines 84-105.  The external
parser `html.Parse` is an oracle `parseHTML`; its error is wrapped by
`fmt.Errorf("failed to parse HTML: %w", err)`. -/
def ExtractWordsFromParagraphs (parseHTML : String → Except String HNode)
    (htmlContent : String) : Except String (List String) :=
  match parseHTML htmlContent with
  | .error e => .error ("failed to parse HTML: " ++ e)
  | .ok doc => .ok (traverse doc)

/-! ### Spec-side extraction pipeline

A second definition of the extractor, following the words of the spec
(§4.1): "taking the text of nodes inside `<p>` elements in depth-first
document order, keeping only alphabetic letters, whitespace, and
apostrophes (dropping all other characters), lowercasing letters, and
splitting on runs of whitespace with empty tokens discarded".  It is
compared with the source-side `traverse` in the refinement theorem. -/

mutual
def specPreorder : HNode → List HNode
  | n@(.mk _ _ cs) => n :: specPreorderF cs
def specPreorderF : HForest → List HNode
  | .nil => []
  | .cons c cs => specPreorder c ++ specPreorderF cs
end

/-- Spec-side normalization: retain letters, whitespace and apostrophes,
lowercase the letters, drop everything else. -/
def specNormalize (s : String) : String :=
  String.mk (s.data.filterMap (fun c =>
    if c.isAlpha || c.isWhitespace || c == Char.ofNat 39
    then some c.toLower else none))

/-- Spec-side tokenization: split on runs of whitespace, discarding empty
tokens. -/
def specTokenize (s : String) : List String :=
  fieldsChars s.data []

/-- Spec-side tokens below one node: the paragraph elements in depth-first
document order, each contributing the tokens of its normalized text. -/
def specTokensNode (n : HNode) : List String :=
  ((specPreorder n).filter isParagraph).flatMap
    (fun m => specTokenize (specNormalize (getText m)))

/-- Spec-side tokens of a sibling chain. -/
def specTokensF (cs : HForest) : List String :=
  ((specPreorderF cs).filter isParagraph).flatMap
    (fun m => specTokenize (specNormalize (getText m)))

/-- Spec-side extractor over the whole document. -/
def specParagraphTokens (doc : HNode) : List String :=
  specTokensNode doc

/-! ## Usage store (`main.go` lines 30-80)

The SQLite table `used_words (word TEXT, language TEXT, PRIMARY KEY(word,
language))` is a list of rows; `INSERT OR IGNORE` leaves the table
unchanged when the primary key is already present. -/

abbrev DBState := List (String × String)

/-- One `INSERT OR IGNORE INTO used_words(word,language) VALUES (?,?)`. -/
def insertOrIgnore (db : DBState) (row : String × String) : DBState :=
  if row ∈ db then db else db ++ [row]

/-- `storeUsedWords` from `main.go` lines 42-62 on the success path: every
word of the batch is inserted (or ignored) and the transaction commits. -/
def storeUsedWords (words : List String) (language : String) (db : DBState) :
    DBState :=
  words.foldl (fun cur word => insertOrIgnore cur (word, language)) db

/-- `storeUsedWords` with an explicit failure oracle for `stmt.Exec`: on
the first failing word the transaction rolls back (the pending inserts are
discarded) and the error is returned; otherwise the batch commits. -/
def storeUsedWordsTx (fails : String → Bool) :
    List String → String → DBState → Except String DBState
  | [], _, cur => .ok cur
  | word :: rest, language, cur =>
    if fails word then .error "insert failed"
    else storeUsedWordsTx fails rest language (insertOrIgnore cur (word, language))

/-- The table state visible after `storeUsedWords` returns: a committed
transaction publishes its state, a rolled-back one restores the original
(SQLite transaction semantics). -/
def storeResultState (db : DBState) : Except String DBState → DBState
  | .ok cur => cur
  | .error _ => db

/-- `getUsedWords` from `main.go` lines 64-80: the words recorded for the
language, as the key set of the returned Go map. -/
def getUsedWords (language : String) (db : DBState) : List String :=
  (db.filter (fun row => row.2 == language)).map (fun row => row.1)

/-! ## HTTP handler (`main.go` lines 19-23, 170-228) -/

def randomArticleURLByLanguage : List (String × String) :=
  [("en", "https://en.wikipedia.org/wiki/Special:Random"),
   ("fr", "https://fr.wikipedia.org/wiki/Sp%C3%A9cial:Page_au_hasard"),
   ("de", "https://de.wikipedia.org/wiki/Spezial:Zuf%C3%A4llige_Seite")]

/-- Go map indexing `randomArticleURLByLanguage[language]`: the zero value
`""` when the key is absent. -/
def lookupURL (language : String) : String :=
  match randomArticleURLByLanguage.find? (fun p => p.1 == language) with
  | some p => p.2
  | none => ""

/-- A non-empty all-digit run read as a decimal number. -/
def parseDigits (cs : List Char) : Option Nat :=
  if cs.isEmpty then none
  else cs.foldl (fun acc c =>
    match acc with
    | none => none
    | some a => if c.isDigit then some (a * 10 + (c.toNat - 48)) else none)
    (some 0)

/-- Model of Go `strconv.Atoi`: an optional sign followed by a non-empty
run of decimal digits; anything else is an error.  Overflow (out of the
64-bit range) is not modelled. -/
def atoi (s : String) : Option Int :=
  match s.data with
  | [] => none
  | c :: rest =>
    if c == Char.ofNat 45 then (parseDigits rest).map (fun v => -(v : Int))
    else if c == Char.ofNat 43 then (parseDigits rest).map (fun v => (v : Int))
    else (parseDigits (c :: rest)).map (fun v => (v : Int))

/-- Language resolution of `main.go` lines 171-174; the absent query
parameter is the empty string (Go `URL.Query().Get`). -/
def resolveLanguage (q : String) : String :=
  if q == "" then "en" else q

/-- Count resolution of `main.go` lines 176-184: an absent parameter
becomes the string `"10"`, and a failed `strconv.Atoi` falls back to 10. -/
def resolveCount (q : String) : Int :=
  match atoi (if q == "" then "10" else q) with
  | some v => v
  | none => 10

/-- Outcomes of the fallible external operations during one request:
the outbound `http.Get` (indexed by URL), the `io.ReadAll` of the response
body (data read so far, and an optional read error), the HTML parser, the
store read, the per-word insert failures, and the random draw stream. -/
structure HandlerEnv where
  fetch : String → Except String Unit
  readBody : String × Option String
  parseHTML : String → Except String HNode
  getUsedErr : Option String
  db : DBState
  storeFails : String → Bool
  draws : List Nat

/-- `strings.Builder.Write` never returns an error (Go standard library
guarantee).  `main.go` line 195 assigns this always-nil error to `err`,
overwriting the `io.ReadAll` error of line 193. -/
def stringsBuilderWriteErr : Option String := none

/-- JSON encoding of the `Response` struct of `main.go` lines 25-28
(words contain no characters needing escapes). -/
def encodeResponse (language : String) (ws : List String) : String :=
  "\x7b\"language\":\"" ++ language ++ "\",\"words\":[" ++
    String.intercalate "," (ws.map (fun w => "\"" ++ w ++ "\"")) ++ "]\x7d"

/-- `pickHandler` from `main.go` lines 170-228.  The result is
`some (status, body)`; `none` means the request never completes because
`PickRandomUniqueWords` did not exit within the drawn stream. -/
def pickHandler (env : HandlerEnv) (qlang qcount : String) :
    Option (Nat × String) :=
  let language := resolveLanguage qlang
  let countValue := resolveCount qcount
  match env.fetch (lookupURL language) with
  | .error e => some (500, e)
  | .ok _ =>
    match stringsBuilderWriteErr with
    | some e => some (500, e)
    | none =>
      match ExtractWordsFromParagraphs env.parseHTML env.readBody.1 with
      | .error e => some (500, e)
      | .ok words =>
        match env.getUsedErr with
        | some e => some (500, e)
        | none =>
          match PickRandomUniqueWords words countValue
              (getUsedWords language env.db) env.draws with
          | none => none
          | some firstNWords =>
            match storeUsedWordsTx env.storeFails firstNWords language env.db with
            | .error e => some (500, e)
            | .ok _ => some (200, encodeResponse language firstNWords)

/-! ## Concrete sample data for the evaluation theorems -/

/-- The paragraph `<p>Hello, World 123 Best!</p>`. -/
def sampleP : HNode :=
  .mk .elementNode "p" (.cons (.mk .textNode "Hello, World 123 Best!" .nil) .nil)

/-- A document with one paragraph and one sibling `<table>Ignored</table>`. -/
def sampleDoc : HNode :=
  .mk .documentNode ""
    (.cons sampleP
      (.cons (.mk .elementNode "table"
        (.cons (.mk .textNode "Ignored" .nil) .nil)) .nil))

/-- Environment of the body-read failure analysis: the outbound fetch
succeeds, `io.ReadAll` fails (returning what was read so far and an
error), and every later step succeeds. -/
def readFailEnv : HandlerEnv where
  fetch := fun _ => .ok ()
  readBody := ("", some "unexpected EOF")
  parseHTML := fun _ => .ok (HNode.mk .documentNode "" .nil)
  getUsedErr := none
  db := []
  storeFails := fun _ => false
  draws := []

/-- Environment where the outbound fetch of the empty URL fails, as
`http.Get("")` does. -/
def fetchFailEnv : HandlerEnv where
  fetch := fun url => if url == "" then .error "unsupported protocol scheme" else .ok ()
  readBody := ("", none)
  parseHTML := fun _ => .ok (HNode.mk .documentNode "" .nil)
  getUsedErr := none
  db := []
  storeFails := fun _ => false
  draws := []

end WikiPicker

namespace WikiPicker

/-- `contains l w` is membership of `w` in `l`. -/
theorem contains_iff (l : List String) (w : String) : contains l w = true ↔ w ∈ l := by
  induction l with
  | nil => simp [contains]
  | cons v rest ih =>
    by_cases h : v = w
    · subst h; simp [contains]
    · simp [contains, beq_iff_eq, h, ih, List.mem_cons]
      exact fun hw => absurd hw.symm h

/-- Loop invariant of `pickLoop`: whenever the loop exits with result `res`
starting from a duplicate-free accumulator `acc`, the result extends `acc`
by accepted words that are drawn from the pool (in draw order), are not in
the excluded set, are pairwise distinct and distinct from `acc`, and the
final length is exactly `n`. -/
theorem pickLoop_some (words : List String) (n : Int) (usedBefore : List String)
    (draws : List Nat) :
    ∀ (acc res : List String), acc.Nodup →
      pickLoop words n usedBefore draws acc = some res →
      ∃ t, res = acc ++ t ∧ (res.length : Int) = n ∧ res.Nodup ∧
        (∀ w ∈ t, w ∈ words) ∧ (∀ w ∈ t, usedBefore.contains w = false) ∧
        t.Sublist (draws.map (fun d => words.getD d "")) := by
  induction draws with
  | nil => intro acc res _ h; simp [pickLoop] at h
  | cons d ds ih =>
    intro acc res hnd h
    unfold pickLoop at h
    cases hw : words[d]? with
    | none => rw [hw] at h; exact absurd h (by simp)
    | some word =>
      rw [hw] at h
      dsimp only at h
      have hgetD : words.getD d "" = word := by
        simp [List.getD_eq_getElem?_getD, hw]
      by_cases hskip : usedBefore.contains word || contains acc word
      · rw [if_pos hskip] at h
        obtain ⟨t, ht, hlen, hnodup, hmem, hused, hsub⟩ := ih acc res hnd h
        exact ⟨t, ht, hlen, hnodup, hmem, hused, hsub.cons _⟩
      · rw [if_neg hskip] at h
        have hskip' : usedBefore.contains word = false ∧ contains acc word = false := by
          revert hskip; cases usedBefore.contains word <;> cases contains acc word <;> simp
        have hwordacc : word ∉ acc := fun hin =>
          by simp [(contains_iff acc word).mpr hin] at hskip'
        have hnd1 : (acc ++ [word]).Nodup := by
          simp [List.nodup_append, hnd, hwordacc]
        have hwmem : word ∈ words := by
          exact List.getElem?_mem hw
        by_cases hstop : (((acc ++ [word]).length : Int) = n)
        · rw [if_pos hstop] at h
          obtain rfl : acc ++ [word] = res := by injection h
          refine ⟨[word], rfl, hstop, hnd1, ?_, ?_, ?_⟩
          · intro w hw'; simp at hw'; subst hw'; exact hwmem
          · intro w hw'; simp at hw'; subst hw'; exact hskip'.1
          · rw [List.map_cons, hgetD]
            exact (List.nil_sublist _).cons₂ word
        · rw [if_neg hstop] at h
          obtain ⟨t, ht, hlen, hnodup, hmem, hused, hsub⟩ := ih (acc ++ [word]) res hnd1 h
          refine ⟨word :: t, by simp [ht], hlen, hnodup, ?_, ?_, ?_⟩
          · intro w hw'
            rcases List.mem_cons.mp hw' with h1 | h1
            · subst h1; exact hwmem
            · exact hmem w h1
          · intro w hw'
            rcases List.mem_cons.mp hw' with h1 | h1
            · subst h1; exact hskip'.1
            · exact hused w h1
          · rw [List.map_cons, hgetD]
            exact hsub.cons₂ word

/-- C1: for `n < len(pool)`, every word of a returned selection avoids the
excluded set, no word repeats, the selection has exactly `n` elements,
every word comes from the pool, and words appear in the order they were
accepted (the selection is a subsequence of the drawn-word stream). -/
theorem pick_exclusion_unique_count (words : List String) (n : Int)
    (usedBefore : List String) (draws : List Nat) (res : List String)
    (hn : n < (words.length : Int))
    (h : PickRandomUniqueWords words n usedBefore draws = some res) :
    (∀ w ∈ res, usedBefore.contains w = false) ∧ res.Nodup ∧
    (res.length : Int) = n ∧ (∀ w ∈ res, w ∈ words) ∧
    res.Sublist (draws.map (fun d => words.getD d "")) := by
  unfold PickRandomUniqueWords at h
  rw [if_neg (by omega)] at h
  obtain ⟨t, ht, hlen, hnodup, hmem, hused, hsub⟩ :=
    pickLoop_some words n usedBefore draws [] res List.nodup_nil h
  simp only [List.nil_append] at ht
  subst ht
  exact ⟨hused, hnodup, hlen, hmem, hsub⟩

/-- Witness for C1: pool `["a","b","c"]`, `n = 2`, excluded `["b"]`, draw
stream `0, 1, 2`; the selection is `["a","c"]`. -/
theorem pick_exclusion_unique_count_witness :
    ((2 : Int) < ((["a", "b", "c"] : List String).length : Int) ∧
      PickRandomUniqueWords ["a", "b", "c"] 2 ["b"] [0, 1, 2] = some ["a", "c"]) ∧
    ((∀ w ∈ (["a", "c"] : List String), (["b"] : List String).contains w = false) ∧
      (["a", "c"] : List String).Nodup ∧
      (((["a", "c"] : List String).length : Int) = 2) ∧
      (∀ w ∈ (["a", "c"] : List String), w ∈ (["a", "b", "c"] : List String)) ∧
      (["a", "c"] : List String).Sublist
        (([0, 1, 2] : List Nat).map (fun d => (["a", "b", "c"] : List String).getD d ""))) :=
  ⟨⟨by decide, by decide⟩,
    pick_exclusion_unique_count ["a", "b", "c"] 2 ["b"] [0, 1, 2] ["a", "c"]
      (by decide) (by decide)⟩

/-- C2: when `n ≥ len(pool)` the selector returns the entire pool,
unchanged, whatever the excluded set and the random draws. -/
theorem pick_returns_pool (words : List String) (n : Int)
    (usedBefore : List String) (draws : List Nat)
    (hn : (words.length : Int) ≤ n) :
    PickRandomUniqueWords words n usedBefore draws = some words := by
  unfold PickRandomUniqueWords
  rw [if_pos (by omega)]

/-- Witness for C2: a pool with a duplicate and an excluded word is
returned verbatim when `n = len(pool)`. -/
theorem pick_returns_pool_witness :
    ((((["a", "b", "a"] : List String).length : Int) ≤ 3) ∧
      PickRandomUniqueWords ["a", "b", "a"] 3 ["a"] [] = some ["a", "b", "a"]) :=
  ⟨by decide, pick_returns_pool ["a", "b", "a"] 3 ["a"] [] (by decide)⟩

/-- With a non-positive target the loop can never exit: the exit test
`len(randomWords) == n` runs only after an append, when the accumulator
has length at least one. -/
theorem pickLoop_none_of_nonpos (words : List String) (n : Int)
    (usedBefore : List String) (hn : n ≤ 0) :
    ∀ (draws : List Nat) (acc : List String),
      pickLoop words n usedBefore draws acc = none := by
  intro draws
  induction draws with
  | nil => intro acc; simp [pickLoop]
  | cons d ds ih =>
    intro acc
    unfold pickLoop
    cases hw : words[d]? with
    | none => rfl
    | some word =>
      dsimp only
      by_cases hskip : usedBefore.contains word || contains acc word
      · rw [if_pos hskip]; exact ih acc
      · have hne : ¬(((acc ++ [word]).length : Int) = n) := by
          have : (acc ++ [word]).length = acc.length + 1 := by simp
          rw [this]; push_cast; omega
        rw [if_neg hskip, if_neg hne]
        exact ih (acc ++ [word])

/-- If the drawn indices point in turn at distinct eligible pool words,
the loop accepts each of them and exits with the accumulated selection. -/
theorem pickLoop_accepts (words : List String) (n : Int) (usedBefore : List String) :
    ∀ (pend acc : List String),
      (acc ++ pend).Nodup →
      (∀ w ∈ pend, w ∈ words) →
      (∀ w ∈ pend, usedBefore.contains w = false) →
      ((acc.length + pend.length : Int) = n) →
      pend ≠ [] →
      pickLoop words n usedBefore (pend.map (fun w => List.indexOf w words)) acc =
        some (acc ++ pend) := by
  intro pend
  induction pend with
  | nil => intro acc _ _ _ _ hne; exact absurd rfl hne
  | cons w rest ih =>
    intro acc hnd hmem hused hlen _
    have hwmem : w ∈ words := hmem w (List.mem_cons_self w rest)
    have hidx : words[List.indexOf w words]? = some w := List.getElem?_indexOf hwmem
    rw [List.map_cons]
    unfold pickLoop
    rw [hidx]
    dsimp only
    obtain ⟨-, -, hdisj⟩ := List.nodup_append.mp hnd
    have hwacc : w ∉ acc := fun hin => hdisj hin (List.mem_cons_self w rest)
    have hcontains : contains acc w = false := by
      rw [← Bool.not_eq_true, contains_iff]; exact hwacc
    have husedw : usedBefore.contains w = false := hused w (List.mem_cons_self w rest)
    have hskip : ¬((usedBefore.contains w || contains acc w) = true) := by
      rw [husedw, hcontains]; simp
    rw [if_neg hskip]
    have hlen' : (acc.length : Int) + (rest.length : Int) + 1 = n := by
      simp only [List.length_cons] at hlen
      push_cast at hlen
      omega
    have e1 : (acc ++ [w]).length = acc.length + 1 := by simp
    have hassoc : (acc ++ [w]) ++ rest = acc ++ w :: rest := by simp
    by_cases hrest : rest = []
    · subst hrest
      simp only [List.length_nil] at hlen'
      have hstop : (((acc ++ [w]).length : Int) = n) := by
        rw [e1]; push_cast; omega
      rw [if_pos hstop]
    · have hr : 0 < rest.length := List.length_pos.mpr hrest
      have hlt : ¬(((acc ++ [w]).length : Int) = n) := by
        rw [e1]; push_cast; omega
      rw [if_neg hlt]
      rw [← hassoc]
      refine ih (acc ++ [w]) ?_ ?_ ?_ ?_ hrest
      · rw [hassoc]; exact hnd
      · exact fun w' h' => hmem w' (List.mem_cons_of_mem w h')
      · exact fun w' h' => hused w' (List.mem_cons_of_mem w h')
      · rw [e1]; push_cast; omega

/-- C3 (amended): for `1 ≤ n < len(pool)`, the selector can exit (some
draw stream makes it terminate) iff at least `n` distinct pool words lie
outside the excluded set; with fewer eligible distinct words it exits on
no draw stream. -/
theorem pick_termination_iff (words : List String) (n : Int)
    (usedBefore : List String) (h1 : 1 ≤ n) (h2 : n < (words.length : Int)) :
    (∃ draws res, PickRandomUniqueWords words n usedBefore draws = some res) ↔
      n ≤ (eligibleCount words usedBefore : Int) := by
  constructor
  · rintro ⟨draws, res, h⟩
    unfold PickRandomUniqueWords at h
    rw [if_neg (by omega)] at h
    obtain ⟨t, ht, hlen, hnodup, hmem, hused, -⟩ :=
      pickLoop_some words n usedBefore draws [] res List.nodup_nil h
    simp only [List.nil_append] at ht
    subst ht
    have hsub : res ⊆ (words.dedup).filter (fun w => !(usedBefore.contains w)) := by
      intro w hw
      rw [List.mem_filter]
      exact ⟨List.mem_dedup.mpr (hmem w hw), by rw [hused w hw]; rfl⟩
    have hle := (List.subperm_of_subset hnodup hsub).length_le
    unfold eligibleCount
    omega
  · intro hele
    have hElen : n ≤ (((words.dedup).filter (fun w => !(usedBefore.contains w))).length : Int) :=
      hele
    have hlenp :
        (((words.dedup).filter (fun w => !(usedBefore.contains w))).take n.toNat).length =
          n.toNat := by
      rw [List.length_take]
      omega
    have hndp :
        (((words.dedup).filter (fun w => !(usedBefore.contains w))).take n.toNat).Nodup :=
      List.Nodup.sublist (List.take_sublist _ _) ((List.nodup_dedup words).filter _)
    refine ⟨(((words.dedup).filter (fun w => !(usedBefore.contains w))).take n.toNat).map
      (fun w => List.indexOf w words),
      ((words.dedup).filter (fun w => !(usedBefore.contains w))).take n.toNat, ?_⟩
    unfold PickRandomUniqueWords
    rw [if_neg (by omega)]
    have hacc := pickLoop_accepts words n usedBefore
      (((words.dedup).filter (fun w => !(usedBefore.contains w))).take n.toNat) []
      (by simpa using hndp)
      (fun w hw => List.mem_dedup.mp
        (List.mem_filter.mp (List.take_subset _ _ hw)).1)
      (fun w hw => by
        have hb := (List.mem_filter.mp (List.take_subset _ _ hw)).2
        simpa using hb)
      (by rw [hlenp]; simp only [List.length_nil]; push_cast; omega)
      (by
        intro hnil
        rw [hnil] at hlenp
        simp only [List.length_nil] at hlenp
        omega)
    simpa using hacc

/-- C3, counterexample to the claim as stated: with pool `["a","b"]`,
empty excluded set and `n = 0`, the eligible-distinct count (2) is at
least `n`, and `n < len(pool)`, yet the selector exits on no draw
stream. -/
theorem pick_termination_cex :
    (0 : Int) < ((["a", "b"] : List String).length : Int) ∧
    (0 : Int) ≤ (eligibleCount ["a", "b"] [] : Int) ∧
    ¬ ∃ draws res, PickRandomUniqueWords ["a", "b"] 0 [] draws = some res := by
  refine ⟨by decide, by decide, ?_⟩
  rintro ⟨draws, res, h⟩
  have hnone : PickRandomUniqueWords ["a", "b"] 0 [] draws = none := by
    unfold PickRandomUniqueWords
    rw [if_neg (by decide)]
    exact pickLoop_none_of_nonpos ["a", "b"] 0 [] (by decide) draws []
  rw [hnone] at h
  exact Option.noConfusion h

/-- Witness for C3 (amended): `n = 1 < 3 = len(pool)` with eligible
distinct words `a` and `c`; a terminating draw stream exists. -/
theorem pick_termination_iff_witness :
    ((1 : Int) ≤ 1 ∧ (1 : Int) < ((["a", "b", "c"] : List String).length : Int)) ∧
    (∃ draws res, PickRandomUniqueWords ["a", "b", "c"] 1 ["b"] draws = some res) :=
  ⟨⟨by decide, by decide⟩,
    (pick_termination_iff ["a", "b", "c"] 1 ["b"] (by decide) (by decide)).mpr (by decide)⟩

/-- C4: with a non-empty pool and `n ≤ 0` the selector exits on no draw
stream, and the handler's count resolution turns the query `count=0` into
exactly this `n = 0`. -/
theorem pick_diverges_on_nonpos_count (words : List String) (n : Int)
    (usedBefore : List String) (draws : List Nat)
    (hn : n ≤ 0) (hw : 0 < words.length) :
    PickRandomUniqueWords words n usedBefore draws = none ∧
    resolveCount "0" = 0 := by
  constructor
  · unfold PickRandomUniqueWords
    rw [if_neg (by omega)]
    exact pickLoop_none_of_nonpos words n usedBefore hn draws []
  · decide

/-- Witness for C4: pool `["a"]`, `n = 0`, draw stream `0, 0, 0`. -/
theorem pick_diverges_on_nonpos_count_witness :
    ((0 : Int) ≤ 0 ∧ 0 < (["a"] : List String).length) ∧
    (PickRandomUniqueWords ["a"] 0 [] [0, 0, 0] = none ∧ resolveCount "0" = 0) :=
  ⟨⟨by decide, by decide⟩,
    pick_diverges_on_nonpos_count ["a"] 0 [] [0, 0, 0] (by decide) (by decide)⟩

/-! ### Store lemmas -/

/-- Membership after one ignored-duplicate insert. -/
theorem mem_insertOrIgnore (db : DBState) (row p : String × String) :
    p ∈ insertOrIgnore db row ↔ p ∈ db ∨ p = row := by
  unfold insertOrIgnore
  by_cases h : row ∈ db
  · rw [if_pos h]
    constructor
    · exact Or.inl
    · rintro (hp | rfl)
      · exact hp
      · exact h
  · rw [if_neg h]
    simp [List.mem_append]

/-- Membership after a whole committed batch. -/
theorem mem_storeUsedWords (words : List String) (language : String) :
    ∀ (db : DBState) (w l : String),
      (w, l) ∈ storeUsedWords words language db ↔
        (w, l) ∈ db ∨ (l = language ∧ w ∈ words) := by
  induction words with
  | nil => intro db w l; simp [storeUsedWords]
  | cons x xs ih =>
    intro db w l
    show (w, l) ∈ storeUsedWords xs language (insertOrIgnore db (x, language)) ↔ _
    rw [ih, mem_insertOrIgnore]
    constructor
    · rintro ((hdb | heq) | ⟨rfl, hmem⟩)
      · exact Or.inl hdb
      · rw [Prod.mk.injEq] at heq
        obtain ⟨rfl, rfl⟩ := heq
        exact Or.inr ⟨rfl, List.mem_cons_self _ _⟩
      · exact Or.inr ⟨rfl, List.mem_cons_of_mem x hmem⟩
    · rintro (hdb | ⟨rfl, hmem⟩)
      · exact Or.inl (Or.inl hdb)
      · rcases List.mem_cons.mp hmem with rfl | hxs
        · exact Or.inl (Or.inr rfl)
        · exact Or.inr ⟨rfl, hxs⟩

/-- `getUsedWords` answers exactly the rows of the requested language. -/
theorem mem_getUsedWords (language : String) (db : DBState) (w : String) :
    w ∈ getUsedWords language db ↔ (w, language) ∈ db := by
  unfold getUsedWords
  rw [List.mem_map]
  constructor
  · rintro ⟨⟨a, b⟩, hmem, rfl⟩
    obtain ⟨hdb, hb⟩ := List.mem_filter.mp hmem
    obtain rfl : b = language := by simpa using hb
    exact hdb
  · intro h
    exact ⟨(w, language), List.mem_filter.mpr ⟨h, by simp⟩, rfl⟩

/-- The ignored-duplicate insert keeps the table duplicate-free. -/
theorem insertOrIgnore_nodup (db : DBState) (row : String × String)
    (h : db.Nodup) : (insertOrIgnore db row).Nodup := by
  unfold insertOrIgnore
  by_cases hm : row ∈ db
  · rwa [if_pos hm]
  · rw [if_neg hm]
    simp [List.nodup_append, h, hm]

/-- A committed batch keeps the table duplicate-free. -/
theorem storeUsedWords_nodup (words : List String) (language : String) :
    ∀ (db : DBState), db.Nodup → (storeUsedWords words language db).Nodup := by
  induction words with
  | nil => intro db h; exact h
  | cons x xs ih =>
    intro db h
    exact ih (insertOrIgnore db (x, language)) (insertOrIgnore_nodup db (x, language) h)

/-- Storing a batch whose pairs are all present already changes nothing. -/
theorem storeUsedWords_noop (language : String) :
    ∀ (words : List String) (db : DBState),
      (∀ w ∈ words, (w, language) ∈ db) → storeUsedWords words language db = db := by
  intro words
  induction words with
  | nil => intro db _; rfl
  | cons x xs ih =>
    intro db h
    show storeUsedWords xs language (insertOrIgnore db (x, language)) = db
    have hx : insertOrIgnore db (x, language) = db := by
      unfold insertOrIgnore
      rw [if_pos (h x (List.mem_cons_self x xs))]
    rw [hx]
    exact ih db (fun w hw => h w (List.mem_cons_of_mem x hw))

/-- C6: round-trip of the store: after a batch is stored, the used-word
set of the language holds exactly the previously recorded words together
with the batch; a language with no rows yields the empty set (not an
error). -/
theorem store_roundtrip (db : DBState) (ws : List String) (language : String) :
    (∀ w, w ∈ getUsedWords language (storeUsedWords ws language db) ↔
      (w ∈ getUsedWords language db ∨ w ∈ ws)) ∧
    (∀ (db' : DBState) (l : String), (∀ row ∈ db', row.2 ≠ l) →
      getUsedWords l db' = []) := by
  constructor
  · intro w
    rw [mem_getUsedWords, mem_storeUsedWords, mem_getUsedWords]
    constructor
    · rintro (hdb | ⟨-, hmem⟩)
      · exact Or.inl hdb
      · exact Or.inr hmem
    · rintro (hdb | hmem)
      · exact Or.inl hdb
      · exact Or.inr ⟨rfl, hmem⟩
  · intro db' l h
    unfold getUsedWords
    have : db'.filter (fun row => row.2 == l) = [] := by
      rw [List.filter_eq_nil_iff]
      intro row hrow
      simpa using h row hrow
    rw [this]
    rfl

/-- Witness for C6 at a concrete store state. -/
theorem store_roundtrip_witness :
    "a" ∈ getUsedWords "en" (storeUsedWords ["a", "b"] "en" [("x", "en")]) ∧
    getUsedWords "fr" [("x", "en")] = [] :=
  ⟨((store_roundtrip [("x", "en")] ["a", "b"] "en").1 "a").mpr (Or.inr (by decide)),
    (store_roundtrip [("x", "en")] ["a", "b"] "en").2 [("x", "en")] "fr" (by decide)⟩

/-- A duplicate-free list counts each of its members exactly once. -/
theorem count_eq_one_of_nodup_mem {α : Type} [BEq α] [LawfulBEq α]
    {l : List α} {a : α} (hnd : l.Nodup) (h : a ∈ l) : l.count a = 1 := by
  induction l with
  | nil => simp at h
  | cons b l ih =>
    rcases List.mem_cons.mp h with rfl | hmem
    · have hnot : a ∉ l := (List.nodup_cons.mp hnd).1
      simp [List.count_cons, List.count_eq_zero.mpr hnot]
    · have hb := List.nodup_cons.mp hnd
      have hne : b ≠ a := by
        rintro rfl
        exact hb.1 hmem
      simp [List.count_cons, hne, ih hb.2 hmem]

/-- C7: after storing, the table still holds each `(word, language)` pair
at most once; re-storing the same batch is a silent no-op; and a word
stored twice has exactly one record. -/
theorem store_uniqueness (db : DBState) (ws : List String) (language w : String)
    (hdb : db.Nodup) :
    (storeUsedWords ws language db).Nodup ∧
    storeUsedWords ws language (storeUsedWords ws language db) =
      storeUsedWords ws language db ∧
    (w ∈ ws → (storeUsedWords ws language (storeUsedWords ws language db)).count
      (w, language) = 1) := by
  have hnd : (storeUsedWords ws language db).Nodup :=
    storeUsedWords_nodup ws language db hdb
  have hnoop : storeUsedWords ws language (storeUsedWords ws language db) =
      storeUsedWords ws language db := by
    apply storeUsedWords_noop
    intro w' hw'
    exact (mem_storeUsedWords ws language db w' language).mpr (Or.inr ⟨rfl, hw'⟩)
  refine ⟨hnd, hnoop, fun hw => ?_⟩
  rw [hnoop]
  exact count_eq_one_of_nodup_mem hnd
    ((mem_storeUsedWords ws language db w language).mpr (Or.inr ⟨rfl, hw⟩))

/-- Witness for C7: storing `["a"]` for `"en"` twice leaves one record. -/
theorem store_uniqueness_witness :
    ([] : DBState).Nodup ∧
    (storeUsedWords ["a"] "en" (storeUsedWords ["a"] "en" [])).count ("a", "en") = 1 :=
  ⟨List.nodup_nil,
    (store_uniqueness [] ["a"] "en" "a" List.nodup_nil).2.2 (by decide)⟩

/-- A batch with a failing insert makes the transaction return an error. -/
theorem storeUsedWordsTx_error (fails : String → Bool) (language : String) :
    ∀ (ws : List String) (db : DBState), (∃ w ∈ ws, fails w = true) →
      ∃ e, storeUsedWordsTx fails ws language db = .error e := by
  intro ws
  induction ws with
  | nil => intro db h; simp at h
  | cons x xs ih =>
    intro db h
    by_cases hf : fails x
    · exact ⟨"insert failed", by simp [storeUsedWordsTx, hf]⟩
    · obtain ⟨w, hw, hfw⟩ := h
      rcases List.mem_cons.mp hw with rfl | hxs
      · exact absurd hfw (by simp [hf])
      · obtain ⟨e, he⟩ := ih (insertOrIgnore db (x, language)) ⟨w, hxs, hfw⟩
        exact ⟨e, by simp [storeUsedWordsTx, hf, he]⟩

/-- A batch with no failing insert commits the usual fold of inserts. -/
theorem storeUsedWordsTx_ok (fails : String → Bool) (language : String) :
    ∀ (ws : List String) (db : DBState), (∀ w ∈ ws, fails w = false) →
      storeUsedWordsTx fails ws language db =
        .ok (storeUsedWords ws language db) := by
  intro ws
  induction ws with
  | nil => intro db _; rfl
  | cons x xs ih =>
    intro db h
    have hf : fails x = false := h x (List.mem_cons_self x xs)
    have hstep : storeUsedWordsTx fails (x :: xs) language db =
        storeUsedWordsTx fails xs language (insertOrIgnore db (x, language)) := by
      simp [storeUsedWordsTx, hf]
    rw [hstep]
    exact ih _ (fun w hw => h w (List.mem_cons_of_mem x hw))

/-- C8: the batch store is atomic: if any insert of the batch fails, the
call returns an error and the visible table is unchanged; if none fails,
the batch commits and every word of it is persisted. -/
theorem store_atomicity (fails : String → Bool) (ws : List String)
    (language : String) (db : DBState) :
    ((∃ w ∈ ws, fails w = true) →
      ∃ e, storeUsedWordsTx fails ws language db = .error e ∧
        storeResultState db (storeUsedWordsTx fails ws language db) = db) ∧
    ((∀ w ∈ ws, fails w = false) →
      storeUsedWordsTx fails ws language db = .ok (storeUsedWords ws language db) ∧
      ∀ w ∈ ws, (w, language) ∈ storeUsedWords ws language db) := by
  constructor
  · intro hex
    obtain ⟨e, he⟩ := storeUsedWordsTx_error fails language ws db hex
    refine ⟨e, he, ?_⟩
    rw [he]
    rfl
  · intro hall
    refine ⟨storeUsedWordsTx_ok fails language ws db hall, fun w hw => ?_⟩
    exact (mem_storeUsedWords ws language db w language).mpr (Or.inr ⟨rfl, hw⟩)

/-- Witness for C8: the insert of `"b"` fails, so storing `["a","b"]`
errors and the table `[("c","en")]` is untouched. -/
theorem store_atomicity_witness :
    (∃ w ∈ (["a", "b"] : List String), (fun x => x == "b") w = true) ∧
    (∃ e, storeUsedWordsTx (fun x => x == "b") ["a", "b"] "en" [("c", "en")] =
        .error e ∧
      storeResultState [("c", "en")]
        (storeUsedWordsTx (fun x => x == "b") ["a", "b"] "en" [("c", "en")]) =
        [("c", "en")]) :=
  ⟨by decide,
    (store_atomicity (fun x => x == "b") ["a", "b"] "en" [("c", "en")]).1 (by decide)⟩

/-! ### Extractor refinement -/

/-- The code-side normalization pipeline (`RemovePunctuation` then
`strings.Fields`) is the spec-side one (normalize then tokenize). -/
theorem specPipeline_eq (s : String) :
    specTokenize (specNormalize s) = fields (RemovePunctuation s) := rfl

mutual
theorem traverse_eq_spec : ∀ n : HNode, traverse n = specTokensNode n
  | .mk t d cs => by
    have hF := traverseF_eq_spec cs
    rw [show traverse (.mk t d cs) =
        (if isParagraph (.mk t d cs) then
          fields (RemovePunctuation (getText (.mk t d cs))) else []) ++
          traverseF cs from by rw [traverse]]
    rw [hF]
    unfold specTokensNode specTokensF
    rw [show specPreorder (.mk t d cs) = .mk t d cs :: specPreorderF cs from by
      rw [specPreorder]]
    by_cases hp : isParagraph (.mk t d cs)
    · rw [if_pos hp, List.filter_cons_of_pos hp, List.flatMap_cons, specPipeline_eq]
    · rw [if_neg hp, List.filter_cons_of_neg (by simpa using hp), List.nil_append]
theorem traverseF_eq_spec : ∀ cs : HForest, traverseF cs = specTokensF cs
  | .nil => by
    rw [show traverseF .nil = [] from by rw [traverseF]]
    unfold specTokensF
    rw [show specPreorderF .nil = [] from by rw [specPreorderF]]
    rfl
  | .cons c cs => by
    have hN := traverse_eq_spec c
    have hF := traverseF_eq_spec cs
    rw [show traverseF (.cons c cs) = traverse c ++ traverseF cs from by
      rw [traverseF]]
    rw [hN, hF]
    unfold specTokensNode specTokensF
    rw [show specPreorderF (.cons c cs) = specPreorder c ++ specPreorderF cs from by
      rw [specPreorderF]]
    rw [List.filter_append, List.flatMap_append]
end

/-- C5: for every document the parser accepts, the extractor returns
exactly the spec-described tokens: the text under each `<p>` element in
depth-first document order, with only letters, whitespace and apostrophes
kept (dropped characters insert no separators), letters lowercased, and
the result split on runs of whitespace with empty tokens discarded; text
outside `<p>` elements contributes nothing. -/
theorem extract_refines_spec (parseHTML : String → Except String HNode)
    (htmlContent : String) (doc : HNode)
    (h : parseHTML htmlContent = .ok doc) :
    ExtractWordsFromParagraphs parseHTML htmlContent =
      .ok (specParagraphTokens doc) := by
  unfold ExtractWordsFromParagraphs
  rw [h]
  dsimp only
  unfold specParagraphTokens
  rw [traverse_eq_spec doc]

/-- Witness for C5: on the sample document the extractor yields the
paragraph's normalized tokens (the digits vanish) and nothing from the
table. -/
theorem extract_refines_spec_witness :
    ((fun _ => Except.ok sampleDoc : String → Except String HNode) "<html>" =
      Except.ok sampleDoc) ∧
    ExtractWordsFromParagraphs (fun _ => Except.ok sampleDoc) "<html>" =
      .ok (specParagraphTokens sampleDoc) ∧
    specParagraphTokens sampleDoc = ["hello", "world", "best"] := by
  refine ⟨rfl,
    extract_refines_spec (fun _ => Except.ok sampleDoc) "<html>" sampleDoc rfl, ?_⟩
  simp only [specParagraphTokens, specTokensNode, specPreorder, specPreorderF,
    getText, getTextF, isParagraph, sampleDoc, sampleP]
  decide

/-! ### Handler theorems -/

/-- C9 (code bug at `main.go` lines 193-199): a failing body read does not
abort the request with 500.  In `readFailEnv` the fetch succeeds and
`io.ReadAll` fails, yet the handler answers 200 with a success payload,
because the read error assigned at line 193 is overwritten at line 195 by
the always-nil error of `strings.Builder.Write`. -/
theorem readall_error_not_surfaced :
    readFailEnv.readBody.2 = some "unexpected EOF" ∧
    stringsBuilderWriteErr = none ∧
    pickHandler readFailEnv "" "" = some (200, encodeResponse "en" []) := by
  refine ⟨rfl, rfl, ?_⟩
  simp only [pickHandler, readFailEnv, resolveLanguage, resolveCount, atoi,
    parseDigits, lookupURL, randomArticleURLByLanguage, stringsBuilderWriteErr,
    ExtractWordsFromParagraphs, traverse, traverseF, isParagraph,
    PickRandomUniqueWords, getUsedWords, storeUsedWordsTx]
  decide

/-- C10: handler parameter resolution: an absent language resolves to
`"en"`; an absent or unparsable count resolves to `10`; and every
language code outside the configured mapping is not rejected but resolves
to the empty URL, whose fetch failure surfaces as a 500 whose body is the
raw error text.  (A non-empty query is required for the unmapped case:
the empty query resolves to the mapped `"en"` first.) -/
theorem param_resolution (env : HandlerEnv) (e : String) (qcount : String)
    (hf : env.fetch "" = .error e) :
    resolveLanguage "" = "en" ∧
    resolveCount "" = 10 ∧
    (∀ q, atoi q = none → resolveCount q = 10) ∧
    (∀ lang, lang ∉ randomArticleURLByLanguage.map (fun p => p.1) →
      lookupURL lang = "" ∧
      (lang ≠ "" → pickHandler env lang qcount = some (500, e))) := by
  refine ⟨by decide, by decide, ?_, ?_⟩
  · intro q hq
    unfold resolveCount
    by_cases h0 : q = ""
    · subst h0; decide
    · rw [if_neg (by simpa using h0), hq]
  · intro lang hnot
    have hurl : lookupURL lang = "" := by
      have hfind : randomArticleURLByLanguage.find? (fun p => p.1 == lang) = none := by
        rw [List.find?_eq_none]
        intro p hp hbeq
        exact hnot (List.mem_map.mpr ⟨p, hp, beq_iff_eq.mp hbeq⟩)
      unfold lookupURL
      rw [hfind]
    refine ⟨hurl, fun hne => ?_⟩
    have hlang : resolveLanguage lang = lang := by
      unfold resolveLanguage
      rw [if_neg (by simpa using hne)]
    unfold pickHandler
    dsimp only
    rw [hlang, hurl, hf]

/-- Witness for C10: in `fetchFailEnv` the fetch of the empty URL fails
with the Go error text; the unmapped code `xx` resolves to the empty URL
and the request answers 500 with that text. -/
theorem param_resolution_witness :
    (fetchFailEnv.fetch "" = .error "unsupported protocol scheme" ∧
      "xx" ∉ randomArticleURLByLanguage.map (fun p => p.1) ∧
      "xx" ≠ "") ∧
    (lookupURL "xx" = "" ∧
      pickHandler fetchFailEnv "xx" "7" = some (500, "unsupported protocol scheme")) :=
  ⟨⟨rfl, by decide, by decide⟩,
    ⟨((param_resolution fetchFailEnv "unsupported protocol scheme" "7" rfl).2.2.2
        "xx" (by decide)).1,
      ((param_resolution fetchFailEnv "unsupported protocol scheme" "7" rfl).2.2.2
        "xx" (by decide)).2 (by decide)⟩⟩

end WikiPicker
